import Mathlib

/-!
Verification of the axios-wrapper-pro request-lifecycle core (src/index.ts,
src/utils.ts, src/config.ts, src/types.ts) against its specification.

Shallow embedding conventions:
* JavaScript structured values (query params, bodies) are modelled by `JValue`
  with integer numbers; floating point, `NaN` and `-0` are out of scope.
  JavaScript `undefined` and `null` both serialize to the empty string in the
  source, and are collapsed to `JValue.jnull` / an absent `Option` field.
* JavaScript objects are association lists in insertion order; a real object
  never has duplicate keys, which theorems assume through `Nodup` hypotheses
  where it matters.
* The `Map` of abort controllers is modelled by the ECMAScript entry-list
  semantics (`MapEntries`): deletion blanks a slot, insertion of a fresh key
  appends, and `forEach` walks the live list by index.  This is what makes
  delete-then-set during iteration observable, exactly as in V8.
* `AbortController` instances are numeric ids; an abort is recorded once in
  `Registry.aborted` (a second `abort()` call on the same controller is a
  no-op and does not re-fire listeners).  Abort listeners installed by the
  environment are modelled by an explicit `hook` parameter.
-/

/-- Structured JavaScript value as it appears in `params` / `data`.
`jnull` stands for both `null` and `undefined` (the source treats them
identically in `_stableStringify`). -/
inductive JValue where
  | jnull : JValue
  | jbool : Bool → JValue
  | jnum : Int → JValue
  | jstr : String → JValue
  | jarr : List JValue → JValue
  | jobj : List (String × JValue) → JValue

/-- JavaScript truthiness of a value. -/
def jsTruthy : JValue → Bool
  | .jnull => false
  | .jbool b => b
  | .jnum n => n != 0
  | .jstr s => s != ""
  | .jarr _ => true
  | .jobj _ => true

/-- Truthiness of a possibly-absent value (absent / `undefined` is falsy). -/
def jsTruthyOpt : Option JValue → Bool
  | none => false
  | some v => jsTruthy v

/-- Property read `obj[key]` on an object in insertion order: first matching
key wins; a missing key yields `undefined`, which serializes like `jnull`. -/
def jlookup (k : String) : List (String × JValue) → JValue
  | [] => .jnull
  | (k', v) :: rest => if k' = k then v else jlookup k rest

mutual
/-- Structural size of a value, used as serializer fuel. -/
def jsize : JValue → Nat
  | .jnull => 1
  | .jbool _ => 1
  | .jnum _ => 1
  | .jstr _ => 1
  | .jarr xs => 1 + jsizeList xs
  | .jobj fs => 1 + jsizeFields fs

def jsizeList : List JValue → Nat
  | [] => 1
  | x :: xs => 1 + jsize x + jsizeList xs

def jsizeFields : List (String × JValue) → Nat
  | [] => 1
  | (_, v) :: fs => 1 + jsize v + jsizeFields fs
end

theorem one_le_jsize (v : JValue) : 1 ≤ jsize v := by
  cases v <;> simp [jsize]

theorem jsize_lt_of_mem {x : JValue} {xs : List JValue} (h : x ∈ xs) :
    jsize x < jsizeList xs := by
  induction xs with
  | nil => cases h
  | cons y ys ih =>
      rcases List.mem_cons.mp h with rfl | h2
      · simp [jsizeList]; omega
      · have := ih h2
        simp [jsizeList]
        omega

theorem jlookup_jsize_lt (k : String) (fs : List (String × JValue)) :
    jsize (jlookup k fs) < 1 + jsizeFields fs := by
  induction fs with
  | nil => simp [jlookup, jsize, jsizeFields]
  | cons p rest ih =>
      obtain ⟨k', v⟩ := p
      simp only [jlookup, jsizeFields]
      split
      · omega
      · omega

/-- JSON escaping of one character as performed by `JSON.stringify` on the
common cases (quote, backslash, the usual control characters).  Other
control characters are left unescaped in this model; no theorem below
depends on them. -/
def escChar (c : Char) : String :=
  if c = '"' then "\\\""
  else if c = '\\' then "\\\\"
  else if c = '\n' then "\\n"
  else if c = '\r' then "\\r"
  else if c = '\t' then "\\t"
  else String.singleton c

/-- `JSON.stringify` of a string literal. -/
def jsonQuote (s : String) : String :=
  "\"" ++ String.join (s.toList.map escChar) ++ "\""

/-- Code-unit lexicographic comparison of character lists: the order used by
the default comparator of `Array.prototype.sort` on strings. -/
def charListLe : List Char → List Char → Bool
  | [], _ => true
  | _ :: _, [] => false
  | a :: as, b :: bs => if a = b then charListLe as bs else decide (a < b)

/-- Lexicographic string comparison by code units (`Object.keys(obj).sort()`
sorts with this order). -/
def strLe (a b : String) : Bool := charListLe a.data b.data

/-- The sort relation on keys, as a decidable proposition. -/
def keyLe (a b : String) : Prop := strLe a b = true

instance keyLe.decidableRel : DecidableRel keyLe := fun a b =>
  instDecidableEqBool (strLe a b) true

/-- `Object.keys(obj).sort()` on the insertion-order key list. -/
def sortKeys (ks : List String) : List String := List.insertionSort keyLe ks

/-- Fuelled serializer body; `stableStringify` instantiates the fuel with the
size of the value, which always suffices. -/
def sstrF : Nat → JValue → String
  | 0, _ => ""
  | _ + 1, .jnull => ""
  | _ + 1, .jbool b => if b then "true" else "false"
  | _ + 1, .jnum n => toString n
  | _ + 1, .jstr s => jsonQuote s
  | n + 1, .jarr xs => "[" ++ String.intercalate "," (xs.map (sstrF n)) ++ "]"
  | n + 1, .jobj fs =>
      "\x7b" ++ String.intercalate ","
        ((sortKeys (fs.map Prod.fst)).map
          (fun k => "\"" ++ k ++ "\":" ++ sstrF n (jlookup k fs))) ++ "\x7d"

/-- `_stableStringify` (src/index.ts lines 204 to 217): null and undefined
become the empty string, arrays serialize elementwise in order, non-array
objects serialize their keys in sorted order via `Object.keys(obj).sort()`
followed by property reads, scalars go through `JSON.stringify`. -/
def stableStringify (v : JValue) : String := sstrF (jsize v) v

theorem sstrF_congr :
    ∀ (bound m n : Nat) (v : JValue), jsize v ≤ bound → jsize v ≤ m → jsize v ≤ n →
      sstrF m v = sstrF n v := by
  intro bound
  induction bound with
  | zero =>
      intro m n v hb _ _
      have := one_le_jsize v
      omega
  | succ N ih =>
      intro m n v hb hm hn
      have h1 := one_le_jsize v
      obtain ⟨m', rfl⟩ : ∃ m', m = m' + 1 := ⟨m - 1, by omega⟩
      obtain ⟨n', rfl⟩ : ∃ n', n = n' + 1 := ⟨n - 1, by omega⟩
      cases v with
      | jnull => simp [sstrF]
      | jbool b => simp [sstrF]
      | jnum i => simp [sstrF]
      | jstr s => simp [sstrF]
      | jarr xs =>
          simp only [sstrF, jsize] at *
          have harg : ∀ x ∈ xs, sstrF m' x = sstrF n' x := by
            intro x hx
            have hlt := jsize_lt_of_mem hx
            exact ih m' n' x (by omega) (by omega) (by omega)
          rw [List.map_congr_left harg]
      | jobj fs =>
          simp only [sstrF, jsize] at *
          have harg : ∀ k ∈ sortKeys (fs.map Prod.fst),
              (fun k => "\"" ++ k ++ "\":" ++ sstrF m' (jlookup k fs)) k =
              (fun k => "\"" ++ k ++ "\":" ++ sstrF n' (jlookup k fs)) k := by
            intro k _
            have hlt := jlookup_jsize_lt k fs
            have : sstrF m' (jlookup k fs) = sstrF n' (jlookup k fs) :=
              ih m' n' (jlookup k fs) (by omega) (by omega) (by omega)
            simp [this]
          rw [List.map_congr_left harg]

theorem sstrF_eq_stableStringify (n : Nat) (v : JValue) (h : jsize v ≤ n) :
    sstrF n v = stableStringify v :=
  sstrF_congr n n (jsize v) v h h le_rfl

theorem stableStringify_jnull : stableStringify .jnull = "" := rfl

theorem stableStringify_jarr (xs : List JValue) :
    stableStringify (.jarr xs) =
      "[" ++ String.intercalate "," (xs.map stableStringify) ++ "]" := by
  show sstrF (jsize (JValue.jarr xs)) (.jarr xs) = _
  have hs : jsize (JValue.jarr xs) = jsizeList xs + 1 := by simp [jsize]; omega
  rw [hs]
  simp only [sstrF]
  have harg : ∀ x ∈ xs, sstrF (jsizeList xs) x = stableStringify x := by
    intro x hx
    exact sstrF_eq_stableStringify _ _ (le_of_lt (jsize_lt_of_mem hx))
  rw [List.map_congr_left harg]

theorem stableStringify_jobj (fs : List (String × JValue)) :
    stableStringify (.jobj fs) =
      "\x7b" ++ String.intercalate ","
        ((sortKeys (fs.map Prod.fst)).map
          (fun k => "\"" ++ k ++ "\":" ++ stableStringify (jlookup k fs))) ++ "\x7d" := by
  show sstrF (jsize (JValue.jobj fs)) (.jobj fs) = _
  have hs : jsize (JValue.jobj fs) = jsizeFields fs + 1 := by simp [jsize]; omega
  rw [hs]
  simp only [sstrF]
  have harg : ∀ k ∈ sortKeys (fs.map Prod.fst),
      (fun k => "\"" ++ k ++ "\":" ++ sstrF (jsizeFields fs) (jlookup k fs)) k =
      (fun k => "\"" ++ k ++ "\":" ++ stableStringify (jlookup k fs)) k := by
    intro k _
    have hlt := jlookup_jsize_lt k fs
    have : sstrF (jsizeFields fs) (jlookup k fs) = stableStringify (jlookup k fs) :=
      sstrF_eq_stableStringify _ _ (by omega)
    simp [this]
  rw [List.map_congr_left harg]

/-!
## Cancellation registry

`this._abortControllers : Map<RequestKey, AbortController>` is modelled with
the ECMAScript Map entry-list semantics: each slot is `some (key, ctrl)` or
`none` (a deleted slot), `set` of a fresh key appends, `set` of a live key
replaces the value in place, `delete` blanks the slot, and `forEach` walks
the live list by index.  Keys are strings; the source also admits symbols,
which behave like nonempty strings in every operation modelled here.
Controllers are numeric ids handed out by `Registry.nextId`; an id enters
`Registry.aborted` (once) when it is aborted.
-/

/-- The internal entry list of a JavaScript `Map`. -/
abbrev MapEntries := List (Option (String × Nat))

/-- `map.get(k)`. -/
def mapGet (es : MapEntries) (k : String) : Option Nat :=
  match es with
  | [] => none
  | some (k', c) :: rest => if k' = k then some c else mapGet rest k
  | none :: rest => mapGet rest k

/-- `map.set(k, c)`: replace in place when the key is live, append otherwise. -/
def mapSet (es : MapEntries) (k : String) (c : Nat) : MapEntries :=
  match es with
  | [] => [some (k, c)]
  | some (k', c') :: rest =>
      if k' = k then some (k, c) :: rest else some (k', c') :: mapSet rest k c
  | none :: rest => none :: mapSet rest k c

/-- `map.delete(k)`: blank the slot of the key, if live. -/
def mapDelete (es : MapEntries) (k : String) : MapEntries :=
  match es with
  | [] => []
  | some (k', c') :: rest =>
      if k' = k then none :: rest else some (k', c') :: mapDelete rest k
  | none :: rest => none :: mapDelete rest k

/-- `map.size`: number of live slots. -/
def mapSize (es : MapEntries) : Nat := (es.filterMap id).length

/-- `map.clear()`: blank every slot. -/
def mapClear (es : MapEntries) : MapEntries := es.map (fun _ => none)

/-- The live keys of a map, in slot order. -/
def mapKeys (es : MapEntries) : List String := (es.filterMap id).map Prod.fst

/-- The live controller ids of a map, in slot order. -/
def mapCtrls (es : MapEntries) : List Nat := (es.filterMap id).map Prod.snd

/-- Client-instance state touched by the cancellation machinery: the
controller map, the id supply for `new AbortController()`, and the ids of
all controllers aborted so far (in order of abortion). -/
structure Registry where
  entries : MapEntries
  nextId : Nat
  aborted : List Nat
deriving DecidableEq, Repr

/-- `controller.abort(reason)`: a no-op on an already-aborted controller;
otherwise the abort flag is set and the environment-installed abort
listeners run.  `hook c s` models whatever those listeners synchronously do
to the client state when controller `c` aborts. -/
def abortCtrl (hook : Nat → Registry → Registry) (s : Registry) (c : Nat) : Registry :=
  if c ∈ s.aborted then s else hook c { s with aborted := s.aborted ++ [c] }

/-- Abort listeners that do nothing (no synchronous re-entry). -/
def noopHook : Nat → Registry → Registry := fun _ s => s

/-- `cancelRequest` (src/index.ts lines 225 to 233): abort and remove the
controller registered under the key, returning whether one was present. -/
def cancelRequest (hook : Nat → Registry → Registry) (s : Registry) (k : String) :
    Registry × Bool :=
  match mapGet s.entries k with
  | some c =>
      let s1 := abortCtrl hook s c
      ({ s1 with entries := mapDelete s1.entries k }, true)
  | none => (s, false)

/-- `_setupAbortController` (src/index.ts lines 149 to 161): cancel any
existing request under the key, then register a fresh controller under it.
The returned id is the fresh controller (whose signal is attached to the
dispatched config together with `_requestKey`). -/
def setupAbortController (hook : Nat → Registry → Registry) (s : Registry) (k : String) :
    Registry × Nat :=
  let s1 := (cancelRequest hook s k).1
  let c := s1.nextId
  ({ s1 with entries := mapSet s1.entries k c, nextId := c + 1 }, c)

/-- `Map.prototype.forEach(controller => controller.abort(reason))` over the
live entry list, by slot index.  The walk re-reads the live list each step,
so slots appended during iteration are visited too; `fuel` bounds the walk
(any value at least the final list length is enough for the runs below). -/
def regForEachAbort (hook : Nat → Registry → Registry) :
    Nat → Nat → Registry → Registry
  | 0, _, s => s
  | fuel + 1, i, s =>
      if h : i < s.entries.length then
        match s.entries.get ⟨i, h⟩ with
        | some (_, c) => regForEachAbort hook fuel (i + 1) (abortCtrl hook s c)
        | none => regForEachAbort hook fuel (i + 1) s
      else s

/-- `cancelAllRequests` (src/index.ts lines 240 to 247): read the size,
abort every entry via `forEach` on the live map, clear, and return the size
read at entry. -/
def cancelAllRequests (hook : Nat → Registry → Registry) (fuel : Nat) (s : Registry) :
    Registry × Nat :=
  let count := mapSize s.entries
  let s1 := regForEachAbort hook fuel 0 s
  ({ s1 with entries := mapClear s1.entries }, count)

/-- Well-formedness of reachable registry states: live keys are distinct
(the Map guarantee), live controllers are distinct, live controllers are
fresh ids that have not been aborted, and every id ever seen is below the
supply counter. -/
def Registry.WF (s : Registry) : Prop :=
  (mapKeys s.entries).Nodup ∧
  (mapCtrls s.entries).Nodup ∧
  (∀ c ∈ mapCtrls s.entries, c < s.nextId ∧ c ∉ s.aborted) ∧
  (∀ a ∈ s.aborted, a < s.nextId)

instance (s : Registry) : Decidable s.WF := by
  unfold Registry.WF
  infer_instance

/-! ### Map lemmas -/

theorem mapKeys_cons_some (k : String) (c : Nat) (rest : MapEntries) :
    mapKeys (some (k, c) :: rest) = k :: mapKeys rest := by
  simp [mapKeys]

theorem mapKeys_cons_none (rest : MapEntries) :
    mapKeys (none :: rest) = mapKeys rest := by
  simp [mapKeys]

theorem mapCtrls_cons_some (k : String) (c : Nat) (rest : MapEntries) :
    mapCtrls (some (k, c) :: rest) = c :: mapCtrls rest := by
  simp [mapCtrls]

theorem mapCtrls_cons_none (rest : MapEntries) :
    mapCtrls (none :: rest) = mapCtrls rest := by
  simp [mapCtrls]

theorem mapGet_mapSet_self (es : MapEntries) (k : String) (c : Nat) :
    mapGet (mapSet es k c) k = some c := by
  induction es with
  | nil => simp [mapSet, mapGet]
  | cons e rest ih =>
      rcases e with _ | ⟨k0, c0⟩
      · simpa [mapSet, mapGet] using ih
      · by_cases hk : k0 = k
        · simp [mapSet, mapGet, hk]
        · simp only [mapSet, if_neg hk, mapGet]
          exact ih

theorem mapGet_mapSet_ne (es : MapEntries) {k k' : String} (c : Nat) (h : k' ≠ k) :
    mapGet (mapSet es k c) k' = mapGet es k' := by
  induction es with
  | nil => simp [mapSet, mapGet, Ne.symm h]
  | cons e rest ih =>
      rcases e with _ | ⟨k0, c0⟩
      · simpa [mapSet, mapGet] using ih
      · by_cases hk : k0 = k
        · subst hk
          simp only [mapSet, if_pos rfl, mapGet]
          rw [if_neg (Ne.symm h), if_neg (Ne.symm h)]
        · simp only [mapSet, if_neg hk, mapGet]
          by_cases h1 : k0 = k'
          · rw [if_pos h1, if_pos h1]
          · rw [if_neg h1, if_neg h1]
            exact ih

theorem mapGet_eq_none_iff (es : MapEntries) (k : String) :
    mapGet es k = none ↔ k ∉ mapKeys es := by
  induction es with
  | nil => simp [mapGet, mapKeys]
  | cons e rest ih =>
      rcases e with _ | ⟨k0, c0⟩
      · rw [mapKeys_cons_none]
        simpa [mapGet] using ih
      · rw [mapKeys_cons_some]
        by_cases hk : k0 = k
        · subst hk
          simp [mapGet]
        · simp only [mapGet, if_neg hk, List.mem_cons]
          rw [ih]
          constructor
          · intro hnm hor
            rcases hor with h1 | h2
            · exact hk h1.symm
            · exact hnm h2
          · intro hall
            exact fun h2 => hall (Or.inr h2)

theorem mapGet_mapDelete_self {es : MapEntries} (k : String)
    (hnd : (mapKeys es).Nodup) : mapGet (mapDelete es k) k = none := by
  induction es with
  | nil => simp [mapDelete, mapGet]
  | cons e rest ih =>
      rcases e with _ | ⟨k0, c0⟩
      · rw [mapKeys_cons_none] at hnd
        simpa [mapDelete, mapGet] using ih hnd
      · rw [mapKeys_cons_some, List.nodup_cons] at hnd
        by_cases hk : k0 = k
        · subst hk
          simp only [mapDelete, if_pos rfl, mapGet]
          rw [mapGet_eq_none_iff]
          exact hnd.1
        · simp only [mapDelete, if_neg hk, mapGet]
          exact ih hnd.2

theorem mapGet_mapDelete_ne (es : MapEntries) {k k' : String} (h : k' ≠ k) :
    mapGet (mapDelete es k) k' = mapGet es k' := by
  induction es with
  | nil => simp [mapDelete, mapGet]
  | cons e rest ih =>
      rcases e with _ | ⟨k0, c0⟩
      · simpa [mapDelete, mapGet] using ih
      · by_cases hk : k0 = k
        · subst hk
          simp only [mapDelete, if_pos rfl, mapGet]
          rw [if_neg (Ne.symm h)]
        · simp only [mapDelete, if_neg hk, mapGet]
          by_cases h1 : k0 = k'
          · rw [if_pos h1, if_pos h1]
          · rw [if_neg h1, if_neg h1]
            exact ih

theorem mapGet_mem_ctrls {es : MapEntries} {k : String} {c : Nat}
    (h : mapGet es k = some c) : c ∈ mapCtrls es := by
  induction es with
  | nil => simp [mapGet] at h
  | cons e rest ih =>
      rcases e with _ | ⟨k0, c0⟩
      · rw [mapCtrls_cons_none]
        simp only [mapGet] at h
        exact ih h
      · rw [mapCtrls_cons_some]
        by_cases hk : k0 = k
        · rw [mapGet, if_pos hk] at h
          injection h with h
          exact h ▸ List.mem_cons_self _ _
        · rw [mapGet, if_neg hk] at h
          exact List.mem_cons_of_mem _ (ih h)

theorem filterMap_mapSet_not_live {es : MapEntries} {k : String} (c : Nat)
    (h : mapGet es k = none) :
    (mapSet es k c).filterMap id = es.filterMap id ++ [(k, c)] := by
  induction es with
  | nil => simp [mapSet]
  | cons e rest ih =>
      rcases e with _ | ⟨k0, c0⟩
      · simp only [mapGet] at h
        simp [mapSet, ih h]
      · by_cases hk : k0 = k
        · rw [mapGet, if_pos hk] at h
          cases h
        · rw [mapGet, if_neg hk] at h
          simp [mapSet, if_neg hk, ih h]

theorem mapKeys_mapSet_not_live {es : MapEntries} {k : String} (c : Nat)
    (h : mapGet es k = none) :
    mapKeys (mapSet es k c) = mapKeys es ++ [k] := by
  simp [mapKeys, filterMap_mapSet_not_live c h]

theorem mapCtrls_mapSet_not_live {es : MapEntries} {k : String} (c : Nat)
    (h : mapGet es k = none) :
    mapCtrls (mapSet es k c) = mapCtrls es ++ [c] := by
  simp [mapCtrls, filterMap_mapSet_not_live c h]

theorem filterMap_mapDelete_sublist (es : MapEntries) (k : String) :
    List.Sublist ((mapDelete es k).filterMap id) (es.filterMap id) := by
  induction es with
  | nil => simp [mapDelete]
  | cons e rest ih =>
      rcases e with _ | ⟨k0, c0⟩
      · simpa [mapDelete] using ih
      · by_cases hk : k0 = k
        · simp only [mapDelete, if_pos hk, List.filterMap_cons, id]
          exact List.sublist_cons_self _ _
        · simp only [mapDelete, if_neg hk, List.filterMap_cons, id]
          exact ih.cons₂ _

theorem mapKeys_mapDelete_sublist (es : MapEntries) (k : String) :
    List.Sublist (mapKeys (mapDelete es k)) (mapKeys es) :=
  (filterMap_mapDelete_sublist es k).map Prod.fst

theorem mapCtrls_mapDelete_sublist (es : MapEntries) (k : String) :
    List.Sublist (mapCtrls (mapDelete es k)) (mapCtrls es) :=
  (filterMap_mapDelete_sublist es k).map Prod.snd

theorem mapGet_not_mem_ctrls_mapDelete {es : MapEntries} {k : String} {c0 : Nat}
    (h : mapGet es k = some c0) (hnd : (mapCtrls es).Nodup) :
    c0 ∉ mapCtrls (mapDelete es k) := by
  induction es with
  | nil => simp [mapGet] at h
  | cons e rest ih =>
      rcases e with _ | ⟨k1, c1⟩
      · rw [mapCtrls_cons_none] at hnd
        simp only [mapGet] at h
        simp only [mapDelete]
        rw [mapCtrls_cons_none]
        exact ih h hnd
      · rw [mapCtrls_cons_some, List.nodup_cons] at hnd
        by_cases hk : k1 = k
        · rw [mapGet, if_pos hk] at h
          injection h with h
          subst h
          simp only [mapDelete, if_pos hk]
          rw [mapCtrls_cons_none]
          exact hnd.1
        · rw [mapGet, if_neg hk] at h
          simp only [mapDelete, if_neg hk]
          rw [mapCtrls_cons_some]
          intro hmem
          rcases List.mem_cons.mp hmem with h1 | h2
          · exact hnd.1 (h1 ▸ mapGet_mem_ctrls h)
          · exact ih h hnd.2 h2

theorem mapSize_eq_length_ctrls (es : MapEntries) :
    mapSize es = (mapCtrls es).length := by
  simp [mapSize, mapCtrls]

theorem mapSize_mapClear (es : MapEntries) : mapSize (mapClear es) = 0 := by
  induction es with
  | nil => simp [mapClear, mapSize]
  | cons e rest ih => simp [mapClear, mapSize]

/-! ### Claim C3: supersede-on-register -/

theorem registry_wf_setup {s : Registry} {k : String} {c0 : Nat} (hwf : s.WF)
    (hreg : mapGet s.entries k = some c0) :
    (setupAbortController noopHook s k).1.WF := by
  obtain ⟨hknd, hcnd, hlive, hab⟩ := hwf
  have hc0 : c0 ∈ mapCtrls s.entries := mapGet_mem_ctrls hreg
  have hc0n : c0 ∉ s.aborted := (hlive c0 hc0).2
  simp only [setupAbortController, cancelRequest, hreg, abortCtrl, if_neg hc0n, noopHook]
  have hdel : mapGet (mapDelete s.entries k) k = none := mapGet_mapDelete_self k hknd
  refine ⟨?_, ?_, ?_, ?_⟩
  · rw [mapKeys_mapSet_not_live _ hdel]
    rw [List.nodup_append]
    refine ⟨(mapKeys_mapDelete_sublist s.entries k).nodup hknd, List.nodup_singleton k, ?_⟩
    intro a ha hb
    rw [List.mem_singleton] at hb
    subst hb
    exact ((mapGet_eq_none_iff _ _).mp hdel) ha
  · rw [mapCtrls_mapSet_not_live _ hdel]
    rw [List.nodup_append]
    refine ⟨(mapCtrls_mapDelete_sublist s.entries k).nodup hcnd, List.nodup_singleton _, ?_⟩
    intro a ha hb
    rw [List.mem_singleton] at hb
    have hmem : a ∈ mapCtrls s.entries := (mapCtrls_mapDelete_sublist s.entries k).mem ha
    rw [hb] at hmem
    exact absurd (hlive _ hmem).1 (lt_irrefl _)
  · intro c hc
    rw [mapCtrls_mapSet_not_live _ hdel] at hc
    rcases List.mem_append.mp hc with hc | hc
    · have hmem : c ∈ mapCtrls s.entries := (mapCtrls_mapDelete_sublist s.entries k).mem hc
      refine ⟨Nat.lt_succ_of_lt (hlive c hmem).1, ?_⟩
      intro hcab
      rcases List.mem_append.mp hcab with h1 | h1
      · exact (hlive c hmem).2 h1
      · rw [List.mem_singleton] at h1
        exact mapGet_not_mem_ctrls_mapDelete hreg hcnd (h1 ▸ hc)
    · rw [List.mem_singleton] at hc
      subst hc
      refine ⟨Nat.lt_succ_self _, ?_⟩
      intro hcab
      rcases List.mem_append.mp hcab with h1 | h1
      · exact absurd (hab _ h1) (lt_irrefl _)
      · rw [List.mem_singleton] at h1
        exact absurd (h1 ▸ (hlive c0 hc0).1) (lt_irrefl _)
  · intro a ha
    rcases List.mem_append.mp ha with h1 | h1
    · exact Nat.lt_succ_of_lt (hab _ h1)
    · rw [List.mem_singleton] at h1
      exact Nat.lt_succ_of_lt (h1 ▸ (hlive c0 hc0).1)

/-- C3: at most one controller is registered per key (well-formedness is
preserved), and `_setupAbortController` on a key with a live controller
aborts that controller exactly once, removes it, and stores and returns a
fresh controller under the key, leaving all other keys untouched. -/
theorem claim_C3 (s : Registry) (k : String) (c0 : Nat) (hwf : s.WF)
    (hreg : mapGet s.entries k = some c0) :
    ((setupAbortController noopHook s k).1.aborted.count c0 = s.aborted.count c0 + 1 ∧
      s.aborted.count c0 = 0) ∧
    mapGet (setupAbortController noopHook s k).1.entries k =
      some (setupAbortController noopHook s k).2 ∧
    (setupAbortController noopHook s k).2 ≠ c0 ∧
    (∀ k', k' ≠ k →
      mapGet (setupAbortController noopHook s k).1.entries k' = mapGet s.entries k') ∧
    (setupAbortController noopHook s k).1.WF := by
  obtain ⟨hknd, hcnd, hlive, hab⟩ := hwf
  have hc0 : c0 ∈ mapCtrls s.entries := mapGet_mem_ctrls hreg
  have hc0n : c0 ∉ s.aborted := (hlive c0 hc0).2
  have hdel : mapGet (mapDelete s.entries k) k = none := mapGet_mapDelete_self k hknd
  refine ⟨⟨?_, ?_⟩, ?_, ?_, ?_, registry_wf_setup ⟨hknd, hcnd, hlive, hab⟩ hreg⟩
  · simp [setupAbortController, cancelRequest, hreg, abortCtrl, if_neg hc0n, noopHook]
  · exact List.count_eq_zero.mpr hc0n
  · simp only [setupAbortController, cancelRequest, hreg, abortCtrl, if_neg hc0n, noopHook]
    exact mapGet_mapSet_self _ _ _
  · simp only [setupAbortController, cancelRequest, hreg, abortCtrl, if_neg hc0n, noopHook]
    exact fun h => absurd (h ▸ (hlive c0 hc0).1) (lt_irrefl _)
  · intro k' hk'
    simp only [setupAbortController, cancelRequest, hreg, abortCtrl, if_neg hc0n, noopHook]
    rw [mapGet_mapSet_ne _ _ hk', mapGet_mapDelete_ne _ hk']

/-- Witness for C3 at a concrete registry with one live entry. -/
theorem claim_C3_witness :
    ((setupAbortController noopHook ⟨[some ("k", 0)], 1, []⟩ "k").1.aborted.count 0 =
        ([] : List Nat).count 0 + 1 ∧ ([] : List Nat).count 0 = 0) ∧
    mapGet (setupAbortController noopHook ⟨[some ("k", 0)], 1, []⟩ "k").1.entries "k" =
      some (setupAbortController noopHook ⟨[some ("k", 0)], 1, []⟩ "k").2 ∧
    (setupAbortController noopHook ⟨[some ("k", 0)], 1, []⟩ "k").2 ≠ 0 ∧
    (∀ k', k' ≠ "k" →
      mapGet (setupAbortController noopHook ⟨[some ("k", 0)], 1, []⟩ "k").1.entries k' =
        mapGet [some ("k", 0)] k') ∧
    (setupAbortController noopHook ⟨[some ("k", 0)], 1, []⟩ "k").1.WF :=
  claim_C3 ⟨[some ("k", 0)], 1, []⟩ "k" 0 (by decide) (by decide)

/-! ### Claim C5: cancelAllRequests -/

theorem regForEach_noop :
    ∀ (fuel i : Nat) (s : Registry),
      s.entries.length ≤ fuel + i →
      (mapCtrls (s.entries.drop i)).Nodup →
      (∀ c ∈ mapCtrls (s.entries.drop i), c ∉ s.aborted) →
      regForEachAbort noopHook fuel i s =
        { s with aborted := s.aborted ++ mapCtrls (s.entries.drop i) } := by
  intro fuel
  induction fuel with
  | zero =>
      intro i s hlen hnd hdisj
      have hnil : s.entries.drop i = [] := List.drop_eq_nil_of_le (by omega)
      rw [hnil]
      simp [regForEachAbort, mapCtrls]
  | succ f ih =>
      intro i s hlen hnd hdisj
      obtain ⟨es, nid, ab⟩ := s
      simp only at hlen hnd hdisj
      by_cases h : i < es.length
      · have hdrop : es.drop i = es.get ⟨i, h⟩ :: es.drop (i + 1) :=
          List.drop_eq_get_cons h
        simp only [regForEachAbort, dif_pos h]
        cases hget : es.get ⟨i, h⟩ with
        | none =>
            rw [hget] at hdrop
            rw [hdrop, mapCtrls_cons_none] at hnd hdisj ⊢
            exact ih (i + 1) ⟨es, nid, ab⟩ (by show es.length ≤ f + (i + 1); omega) hnd hdisj
        | some p =>
            obtain ⟨k, c⟩ := p
            rw [hget] at hdrop
            rw [hdrop, mapCtrls_cons_some] at hnd hdisj ⊢
            rw [List.nodup_cons] at hnd
            have hcnab : c ∉ ab := hdisj c (List.mem_cons_self _ _)
            show regForEachAbort noopHook f (i + 1)
                (abortCtrl noopHook ⟨es, nid, ab⟩ c) = _
            simp only [abortCtrl, noopHook]
            rw [if_neg hcnab]
            have hres := ih (i + 1) ⟨es, nid, ab ++ [c]⟩
              (by show es.length ≤ f + (i + 1); omega)
              (by simpa using hnd.2)
              (by
                intro c2 hc2 hmem
                rcases List.mem_append.mp hmem with h1 | h1
                · exact hdisj c2 (List.mem_cons_of_mem _ hc2) h1
                · rw [List.mem_singleton] at h1
                  exact hnd.1 (h1 ▸ hc2))
            simp only at hres
            rw [hres]
            simp [List.append_assoc]
      · have hnil : es.drop i = [] := List.drop_eq_nil_of_le (by simpa using Nat.le_of_not_lt h)
        simp only [regForEachAbort, dif_neg h]
        rw [hnil]
        simp [mapCtrls]

/-- Amended C5 (no registry-mutating abort listeners): `cancelAllRequests`
on a well-formed registry with `N` live entries aborts exactly those `N`
controllers, leaves the registry empty, and returns `N`. -/
theorem claim_C5_amended (s : Registry) (fuel : Nat) (hwf : s.WF)
    (hfuel : s.entries.length ≤ fuel) :
    (cancelAllRequests noopHook fuel s).2 = mapSize s.entries ∧
    mapSize (cancelAllRequests noopHook fuel s).1.entries = 0 ∧
    (cancelAllRequests noopHook fuel s).1.aborted =
      s.aborted ++ mapCtrls s.entries ∧
    (cancelAllRequests noopHook fuel s).1.aborted.length =
      s.aborted.length + mapSize s.entries := by
  obtain ⟨hknd, hcnd, hlive, hab⟩ := hwf
  have hfe := regForEach_noop fuel 0 s (by omega)
    (by simpa using hcnd)
    (by
      intro c hc
      rw [List.drop_zero] at hc
      exact (hlive c hc).2)
  rw [List.drop_zero] at hfe
  refine ⟨rfl, ?_, ?_, ?_⟩
  · simp [cancelAllRequests, mapSize_mapClear]
  · simp [cancelAllRequests, hfe]
  · simp [cancelAllRequests, hfe, mapSize_eq_length_ctrls]

/-- Witness for the amended C5 at a registry with two live entries. -/
theorem claim_C5_amended_witness :
    (cancelAllRequests noopHook 2 ⟨[some ("a", 0), some ("b", 1)], 2, []⟩).2 =
      mapSize [some ("a", 0), some ("b", 1)] ∧
    mapSize (cancelAllRequests noopHook 2
        ⟨[some ("a", 0), some ("b", 1)], 2, []⟩).1.entries = 0 ∧
    (cancelAllRequests noopHook 2 ⟨[some ("a", 0), some ("b", 1)], 2, []⟩).1.aborted =
      [] ++ mapCtrls [some ("a", 0), some ("b", 1)] ∧
    (cancelAllRequests noopHook 2 ⟨[some ("a", 0), some ("b", 1)], 2, []⟩).1.aborted.length =
      ([] : List Nat).length + mapSize [some ("a", 0), some ("b", 1)] :=
  claim_C5_amended ⟨[some ("a", 0), some ("b", 1)], 2, []⟩ 2 (by decide) (by decide)

/-- An abort listener that synchronously re-registers a request under the
key "k" the first time controller 0 aborts, exactly as application code
calling back into the wrapper would (its `_setupAbortController` performs a
delete followed by a set, so the key moves to the end of the live map). -/
def reregisterHook : Nat → Registry → Registry := fun c s =>
  if c = 0 then (setupAbortController noopHook s "k").1 else s

/-- C5 counterexample: on a registry with one live entry, when the abort
listener synchronously re-registers under the same key, the live `forEach`
also visits the re-registered slot: two controllers are aborted even though
the entry count at the start was one.  The run terminates well before the
given fuel, as the agreement between fuel 4 and fuel 400 shows. -/
theorem claim_C5_counterexample :
    mapSize (⟨[some ("k", 0)], 1, []⟩ : Registry).entries = 1 ∧
    (cancelAllRequests reregisterHook 4 ⟨[some ("k", 0)], 1, []⟩).2 = 1 ∧
    (cancelAllRequests reregisterHook 4 ⟨[some ("k", 0)], 1, []⟩).1.aborted = [0, 1] ∧
    mapSize (cancelAllRequests reregisterHook 4 ⟨[some ("k", 0)], 1, []⟩).1.entries = 0 ∧
    cancelAllRequests reregisterHook 400 ⟨[some ("k", 0)], 1, []⟩ =
      cancelAllRequests reregisterHook 4 ⟨[some ("k", 0)], 1, []⟩ := by
  refine ⟨by decide, by decide, by decide, by decide, by decide⟩

/-! ### Claim C7: response interceptors and registry cleanup -/

/-- A completed call as seen by the installed response hooks: the
`_requestKey` stored in the call configuration at dispatch time (absent when
the config never went through `_setupAbortController`, or on the error path
when `error.config` is undefined), plus an opaque payload handed to the
user-supplied hook. -/
structure CompletedCall where
  requestKey : Option String
  payload : Nat

/-- The registry cleanup performed by both installed response hooks
(src/index.ts lines 90 to 105): `const key = config._requestKey;
key && this._abortControllers.delete(key)`.  The guard is JavaScript
truthiness, so an absent key and the empty-string key are both skipped. -/
def responseHookCleanup (es : MapEntries) (key : Option String) : MapEntries :=
  match key with
  | some k => if k = "" then es else mapDelete es k
  | none => es

/-- The installed response hook (success and error paths are identical in
what they do to the registry): clean up first, then run the user-supplied
hook on the payload. -/
def installedResponseHook (userHook : Nat → Nat) (es : MapEntries)
    (call : CompletedCall) : MapEntries × Nat :=
  (responseHookCleanup es call.requestKey, userHook call.payload)

/-- Amended C7: for every completed call carrying a truthy `_requestKey`
(for string keys: a nonempty one), the installed hooks remove exactly that
stored key from the registry before the user hook runs; every other key is
untouched, and the stored key is absent afterwards.  (A call whose stored
key is the empty string is skipped by the truthiness guard and its entry
leaks; see the counterexample.) -/
theorem claim_C7_amended (userHook : Nat → Nat) (es : MapEntries)
    (call : CompletedCall) (k : String) (hk : call.requestKey = some k)
    (hne : k ≠ "") (hnd : (mapKeys es).Nodup) :
    (installedResponseHook userHook es call).1 = mapDelete es k ∧
    mapGet (installedResponseHook userHook es call).1 k = none ∧
    (∀ k', k' ≠ k →
      mapGet (installedResponseHook userHook es call).1 k' = mapGet es k') ∧
    (installedResponseHook userHook es call).2 = userHook call.payload := by
  simp only [installedResponseHook, responseHookCleanup, hk, if_neg hne]
  refine ⟨trivial, mapGet_mapDelete_self k hnd, ?_, trivial⟩
  intro k' hk'
  exact mapGet_mapDelete_ne es hk'

/-- Witness for the amended C7 on a registry holding the stored key and one
other key. -/
theorem claim_C7_amended_witness :
    (installedResponseHook (fun p => p + 1) [some ("a", 3), some ("b", 4)]
        ⟨some "a", 7⟩).1 = mapDelete [some ("a", 3), some ("b", 4)] "a" ∧
    mapGet (installedResponseHook (fun p => p + 1) [some ("a", 3), some ("b", 4)]
        ⟨some "a", 7⟩).1 "a" = none ∧
    (∀ k', k' ≠ "a" →
      mapGet (installedResponseHook (fun p => p + 1) [some ("a", 3), some ("b", 4)]
          ⟨some "a", 7⟩).1 k' = mapGet [some ("a", 3), some ("b", 4)] k') ∧
    (installedResponseHook (fun p => p + 1) [some ("a", 3), some ("b", 4)]
        ⟨some "a", 7⟩).2 = (fun p => p + 1) 7 :=
  claim_C7_amended (fun p => p + 1) [some ("a", 3), some ("b", 4)] ⟨some "a", 7⟩
    "a" rfl (by decide) (by decide)

/-- C7 counterexample: a call whose stored `_requestKey` is the empty
string (a legal `RequestKey`, since `requestKey ?? generated` passes `""`
through) is not removed by the hooks — `key && delete(key)` skips falsy
keys — so the key is still present after the hook path runs, contradicting
the claim for every request carrying a `_requestKey`. -/
theorem claim_C7_counterexample :
    (installedResponseHook id [some ("", 5)] ⟨some "", 9⟩).1 = [some ("", 5)] ∧
    mapGet (installedResponseHook id [some ("", 5)] ⟨some "", 9⟩).1 "" = some 5 := by
  refine ⟨by decide, by decide⟩

/-!
## Retry controller

`request` (src/index.ts lines 298 to 349).  The transport
(`this._instance.request`) is an oracle mapping the invocation index to an
outcome; errors carry the data the retry machinery inspects: the
`axios.isCancel` flag and the optional response status.  `sleep` suspends
but changes no modelled state, so the delay branch is a no-op here.  The
registry cleanup performed by the response interceptors on the error path
repeats the cleanup done in the catch block (the deletes are idempotent),
and on the success path the loop returns immediately; neither affects any
quantity the theorems below speak about, so interceptor effects are
modelled separately (claim C7).
-/

/-- The data of an axios error that the retry machinery inspects. -/
structure AxiosErrorM where
  cancelled : Bool
  response : Option Int
deriving DecidableEq, Repr

/-- `DEFAULT_RETRY_CONFIG.condition` (src/config.ts lines 19 to 27): never
retry cancellations, retry network errors (no response), retry server
errors (status at least 500). -/
def defaultRetryCondition (e : AxiosErrorM) : Bool :=
  if e.cancelled then false
  else
    match e.response with
    | none => true
    | some st => st ≥ 500

/-- A full retry configuration (`RetryConfig`). -/
structure RetryConfigM where
  count : Int
  delay : Int
  condition : AxiosErrorM → Bool

/-- `DEFAULT_RETRY_CONFIG` (src/config.ts lines 19 to 27). -/
def DEFAULT_RETRY_CONFIG : RetryConfigM :=
  { count := 0, delay := 1000, condition := defaultRetryCondition }

/-- A partial retry configuration (`Partial<RetryConfig>`): a field is
`none` when absent.  (A field present but explicitly `undefined` is outside
this model.) -/
structure RetryOverride where
  count : Option Int
  delay : Option Int
  condition : Option (AxiosErrorM → Bool)

/-- The empty override `\x7b\x7d`. -/
def emptyOverride : RetryOverride := { count := none, delay := none, condition := none }

/-- Object spread `\x7b...base, ...ov\x7d` on retry configurations: a field
present in `ov` wins. -/
def mergeRetry (base : RetryConfigM) (ov : RetryOverride) : RetryConfigM :=
  { count := ov.count.getD base.count,
    delay := ov.delay.getD base.delay,
    condition := ov.condition.getD base.condition }

/-- `this._retryConfig` as built by the constructor (src/index.ts lines 32
to 35): `\x7b...DEFAULT_RETRY_CONFIG, ...(options?.retry || \x7b\x7d)\x7d`. -/
def instanceRetryConfig (optionsRetry : Option RetryOverride) : RetryConfigM :=
  mergeRetry DEFAULT_RETRY_CONFIG (optionsRetry.getD emptyOverride)

/-- The per-call merged configuration (src/index.ts lines 302 to 305):
`\x7b...this._retryConfig, ...(retry || \x7b\x7d)\x7d`. -/
def mergedRetryConfig (optionsRetry callRetry : Option RetryOverride) : RetryConfigM :=
  mergeRetry (instanceRetryConfig optionsRetry) (callRetry.getD emptyOverride)

/-- The retry loop of `request` (src/index.ts lines 310 to 348), one
recursive step per `for` iteration.  `attempt` is the loop counter,
`lastError` the accumulator (initially `null`, modelled `none`), `inv` the
number of transport invocations so far.  The fuel is structural; `request`
supplies `(count + 1).toNat`, which makes the fuel hit zero exactly when
`attempt <= count` first fails, so the zero-fuel branch returns the same
`Promise.reject(lastError)` the loop exit does. -/
def requestGo (cfg : RetryConfigM) (transport : Nat → Except AxiosErrorM Nat)
    (key : String) :
    Nat → Int → Option AxiosErrorM → Registry → Nat →
    Registry × Nat × Except (Option AxiosErrorM) Nat
  | 0, _, lastError, reg, inv => (reg, inv, Except.error lastError)
  | fuel + 1, attempt, lastError, reg, inv =>
      if attempt ≤ cfg.count then
        let reg1 :=
          if attempt > 0 then { reg with entries := mapDelete reg.entries key } else reg
        let reg2 := (setupAbortController noopHook reg1 key).1
        match transport inv with
        | Except.ok res => (reg2, inv + 1, Except.ok res)
        | Except.error e =>
            let reg3 := { reg2 with entries := mapDelete reg2.entries key }
            if attempt == cfg.count || !cfg.condition e || e.cancelled then
              (reg3, inv + 1, Except.error (some e))
            else
              requestGo cfg transport key fuel (attempt + 1) (some e) reg3 (inv + 1)
      else (reg, inv, Except.error lastError)

/-- `request` with a merged retry configuration: run the loop from attempt
0 with `lastError = null` and no transport invocations yet.  The result is
the final registry, the total number of transport invocations, and the
settled outcome (`Except.error none` is `Promise.reject(null)`). -/
def requestModel (cfg : RetryConfigM) (transport : Nat → Except AxiosErrorM Nat)
    (key : String) (reg : Registry) :
    Registry × Nat × Except (Option AxiosErrorM) Nat :=
  requestGo cfg transport key (cfg.count + 1).toNat 0 none reg 0

theorem requestGo_inv_le (cfg : RetryConfigM) (tr : Nat → Except AxiosErrorM Nat)
    (key : String) :
    ∀ (fuel : Nat) (attempt : Int) (lastError : Option AxiosErrorM)
      (reg : Registry) (inv : Nat),
      (requestGo cfg tr key fuel attempt lastError reg inv).2.1 ≤ inv + fuel := by
  intro fuel
  induction fuel with
  | zero =>
      intro a l r i
      simp [requestGo]
  | succ f ih =>
      intro a l r i
      simp only [requestGo]
      split
      · split
        · simp
        · split
          · simp
          · rename_i e heq hbreak
            exact le_trans (ih (a + 1) (some e) _ (i + 1)) (by omega)
      · simp

theorem requestGo_inv_ge (cfg : RetryConfigM) (tr : Nat → Except AxiosErrorM Nat)
    (key : String) :
    ∀ (fuel : Nat) (attempt : Int) (lastError : Option AxiosErrorM)
      (reg : Registry) (inv : Nat),
      inv ≤ (requestGo cfg tr key fuel attempt lastError reg inv).2.1 := by
  intro fuel
  induction fuel with
  | zero =>
      intro a l r i
      simp [requestGo]
  | succ f ih =>
      intro a l r i
      simp only [requestGo]
      split
      · split
        · simp
        · split
          · simp
          · rename_i e heq hbreak
            exact le_trans (by omega) (ih (a + 1) (some e) _ (i + 1))
      · simp

theorem requestGo_enters (cfg : RetryConfigM) (tr : Nat → Except AxiosErrorM Nat)
    (key : String) (fuel : Nat) (attempt : Int) (lastError : Option AxiosErrorM)
    (reg : Registry) (inv : Nat) (h : attempt ≤ cfg.count) :
    inv + 1 ≤ (requestGo cfg tr key (fuel + 1) attempt lastError reg inv).2.1 := by
  simp only [requestGo, if_pos h]
  split
  · simp
  · split
    · simp
    · rename_i e heq hbreak
      exact requestGo_inv_ge cfg tr key fuel (attempt + 1) (some e) _ (inv + 1)

theorem requestGo_allfail (cfg : RetryConfigM) (tr : Nat → Except AxiosErrorM Nat)
    (key : String) (errs : Nat → AxiosErrorM)
    (hf : ∀ i, tr i = Except.error (errs i)) :
    ∀ (fuel : Nat) (attempt : Int) (lastError : Option AxiosErrorM)
      (reg : Registry) (inv : Nat),
      ((requestGo cfg tr key fuel attempt lastError reg inv).2.1 = inv ∧
        (requestGo cfg tr key fuel attempt lastError reg inv).2.2 =
          Except.error lastError) ∨
      (requestGo cfg tr key fuel attempt lastError reg inv).2.2 =
        Except.error (some (errs
          ((requestGo cfg tr key fuel attempt lastError reg inv).2.1 - 1))) := by
  intro fuel
  induction fuel with
  | zero =>
      intro a l r i
      left
      simp [requestGo]
  | succ f ih =>
      intro a l r i
      by_cases h : a ≤ cfg.count
      · simp only [requestGo, if_pos h, hf i]
        split
        · right
          simp
        · rename_i hbreak
          rcases ih (a + 1) (some (errs i)) _ (i + 1) with ⟨h1, h2⟩ | h1
          · right
            rw [h1, h2]
            simp
          · right
            exact h1
      · left
        simp [requestGo, if_neg h]

/-- The registry of a fresh client: no entries, no controllers handed out. -/
def emptyRegistry : Registry := ⟨[], 0, []⟩

/-- A transport that always fails with a retryable server error (503). -/
def alwaysFail503 : Nat → Except AxiosErrorM Nat :=
  fun _ => Except.error ⟨false, some 503⟩

/-- The error of the i-th invocation in the escalating-failure scenario:
status 500 + i, never a cancellation. -/
def escalatingErr : Nat → AxiosErrorM := fun i => ⟨false, some (500 + i)⟩

/-- A transport whose i-th invocation fails with `escalatingErr i`. -/
def escalatingFail : Nat → Except AxiosErrorM Nat :=
  fun i => Except.error (escalatingErr i)

/-- A retry condition that accepts exactly status 500: it returns true on
the first escalating error and false on the second. -/
def statusIs500 : AxiosErrorM → Bool := fun e => e.response == some 500

/-- C1: with a non-negative merged retry count, the transport is invoked at
most `count + 1` times and at least once; with `count = 2` and a transport
that always fails retryably there are exactly 3 invocations, and with
`count = 2` and a condition that rejects the error of the first failure
retry there are exactly 2. -/
theorem claim_C1 :
    (∀ (cfg : RetryConfigM) (tr : Nat → Except AxiosErrorM Nat) (key : String)
        (reg : Registry), 0 ≤ cfg.count →
      ((requestModel cfg tr key reg).2.1 : Int) ≤ cfg.count + 1 ∧
      1 ≤ (requestModel cfg tr key reg).2.1) ∧
    (requestModel ⟨2, 0, defaultRetryCondition⟩ alwaysFail503 "k" emptyRegistry).2.1 = 3 ∧
    (requestModel ⟨2, 0, statusIs500⟩ escalatingFail "k" emptyRegistry).2.1 = 2 := by
  refine ⟨?_, by decide, by decide⟩
  intro cfg tr key reg h
  constructor
  · have h1 := requestGo_inv_le cfg tr key ((cfg.count + 1).toNat) 0 none reg 0
    simp only [requestModel]
    omega
  · obtain ⟨f, hf⟩ : ∃ f, (cfg.count + 1).toNat = f + 1 :=
      ⟨(cfg.count + 1).toNat - 1, by omega⟩
    simp only [requestModel, hf]
    exact requestGo_enters cfg tr key f 0 none reg 0 h

/-- Witness for C1 at count 3 with the always-failing transport. -/
theorem claim_C1_witness :
    ((requestModel ⟨3, 0, defaultRetryCondition⟩ alwaysFail503 "k" emptyRegistry).2.1 : Int) ≤
      (3 : Int) + 1 ∧
    1 ≤ (requestModel ⟨3, 0, defaultRetryCondition⟩ alwaysFail503 "k" emptyRegistry).2.1 :=
  claim_C1.1 ⟨3, 0, defaultRetryCondition⟩ alwaysFail503 "k" emptyRegistry (by decide)

/-- C2: whenever an attempt (at any position in the loop, under any policy)
fails with a cancellation-flavoured error, the loop breaks at once: that
invocation is the last one and the cancellation error itself is the settled
outcome.  The second conjunct instantiates this for a `request` whose first
attempt is cancelled. -/
theorem claim_C2 :
    (∀ (cfg : RetryConfigM) (tr : Nat → Except AxiosErrorM Nat) (key : String)
        (fuel : Nat) (attempt : Int) (lastError : Option AxiosErrorM)
        (reg : Registry) (inv : Nat) (e : AxiosErrorM),
      attempt ≤ cfg.count → tr inv = Except.error e → e.cancelled = true →
      (requestGo cfg tr key (fuel + 1) attempt lastError reg inv).2.1 = inv + 1 ∧
      (requestGo cfg tr key (fuel + 1) attempt lastError reg inv).2.2 =
        Except.error (some e)) ∧
    (∀ (cfg : RetryConfigM) (tr : Nat → Except AxiosErrorM Nat) (key : String)
        (reg : Registry) (e : AxiosErrorM),
      0 ≤ cfg.count → tr 0 = Except.error e → e.cancelled = true →
      (requestModel cfg tr key reg).2.1 = 1 ∧
      (requestModel cfg tr key reg).2.2 = Except.error (some e)) := by
  have main : ∀ (cfg : RetryConfigM) (tr : Nat → Except AxiosErrorM Nat) (key : String)
      (fuel : Nat) (attempt : Int) (lastError : Option AxiosErrorM)
      (reg : Registry) (inv : Nat) (e : AxiosErrorM),
      attempt ≤ cfg.count → tr inv = Except.error e → e.cancelled = true →
      (requestGo cfg tr key (fuel + 1) attempt lastError reg inv).2.1 = inv + 1 ∧
      (requestGo cfg tr key (fuel + 1) attempt lastError reg inv).2.2 =
        Except.error (some e) := by
    intro cfg tr key fuel attempt lastError reg inv e hle htr hc
    simp only [requestGo, if_pos hle, htr]
    simp [hc]
  refine ⟨main, ?_⟩
  intro cfg tr key reg e h0 htr hc
  obtain ⟨f, hf⟩ : ∃ f, (cfg.count + 1).toNat = f + 1 :=
    ⟨(cfg.count + 1).toNat - 1, by omega⟩
  simp only [requestModel, hf]
  exact main cfg tr key f 0 none reg 0 e h0 htr hc

/-- Witness for C2: a policy with count 5 and an always-true condition
still performs exactly one invocation when the first attempt is cancelled,
and delivers the cancellation error. -/
theorem claim_C2_witness :
    (requestModel ⟨5, 0, fun _ => true⟩ (fun _ => Except.error ⟨true, none⟩) "k"
        emptyRegistry).2.1 = 1 ∧
    (requestModel ⟨5, 0, fun _ => true⟩ (fun _ => Except.error ⟨true, none⟩) "k"
        emptyRegistry).2.2 = Except.error (some ⟨true, none⟩) :=
  claim_C2.2 ⟨5, 0, fun _ => true⟩ (fun _ => Except.error ⟨true, none⟩) "k"
    emptyRegistry ⟨true, none⟩ (by decide) rfl rfl

/-- C8: when every attempt fails, the settled outcome is exactly the error
of the last attempt (the one at invocation index `n - 1` where `n` is the
number of invocations); earlier errors are discarded, and an error whose
retry was refused by the condition predicate is surfaced as-is. -/
theorem claim_C8 (cfg : RetryConfigM) (tr : Nat → Except AxiosErrorM Nat)
    (key : String) (reg : Registry) (errs : Nat → AxiosErrorM)
    (h0 : 0 ≤ cfg.count) (hf : ∀ i, tr i = Except.error (errs i)) :
    (requestModel cfg tr key reg).2.2 =
      Except.error (some (errs ((requestModel cfg tr key reg).2.1 - 1))) := by
  obtain ⟨f, hfe⟩ : ∃ f, (cfg.count + 1).toNat = f + 1 :=
    ⟨(cfg.count + 1).toNat - 1, by omega⟩
  simp only [requestModel, hfe]
  have henter := requestGo_enters cfg tr key f 0 none reg 0 h0
  rcases requestGo_allfail cfg tr key errs hf (f + 1) 0 none reg 0 with ⟨h1, _⟩ | h1
  · omega
  · exact h1

/-- Witness for C8: count 1 with escalating failures settles with the error
of the second (last) invocation.  The condition rejecting status 501 is
also exercised via `statusIs500`. -/
theorem claim_C8_witness :
    (requestModel ⟨1, 0, statusIs500⟩ escalatingFail "k" emptyRegistry).2.2 =
      Except.error (some (escalatingErr
        ((requestModel ⟨1, 0, statusIs500⟩ escalatingFail "k" emptyRegistry).2.1 - 1))) :=
  claim_C8 ⟨1, 0, statusIs500⟩ escalatingFail "k" emptyRegistry escalatingErr
    (by decide) (fun _ => rfl)

/-- C10: with a negative merged retry count the loop body never runs: no
transport invocation, the registry is returned untouched, and the promise
rejects with `null`. -/
theorem claim_C10 (cfg : RetryConfigM) (tr : Nat → Except AxiosErrorM Nat)
    (key : String) (reg : Registry) (h : cfg.count < 0) :
    requestModel cfg tr key reg = (reg, 0, Except.error none) := by
  have hz : (cfg.count + 1).toNat = 0 := by omega
  simp [requestModel, hz, requestGo]

/-- Witness for C10 at count -1. -/
theorem claim_C10_witness :
    requestModel ⟨-1, 1000, defaultRetryCondition⟩ alwaysFail503 "k" emptyRegistry =
      (emptyRegistry, 0, Except.error none) :=
  claim_C10 ⟨-1, 1000, defaultRetryCondition⟩ alwaysFail503 "k" emptyRegistry (by decide)

/-- C9: the retry policy applied by `request` is the shallow field-by-field
merge of the built-in default, the client-instance override, and the
per-call override, in increasing precedence, for each of `count`, `delay`
and `condition`; absent option objects behave as empty overrides. -/
theorem claim_C9 :
    (∀ (instOv callOv : RetryOverride),
      (mergedRetryConfig (some instOv) (some callOv)).count =
        callOv.count.getD (instOv.count.getD DEFAULT_RETRY_CONFIG.count) ∧
      (mergedRetryConfig (some instOv) (some callOv)).delay =
        callOv.delay.getD (instOv.delay.getD DEFAULT_RETRY_CONFIG.delay) ∧
      (mergedRetryConfig (some instOv) (some callOv)).condition =
        callOv.condition.getD (instOv.condition.getD DEFAULT_RETRY_CONFIG.condition)) ∧
    mergedRetryConfig none none = DEFAULT_RETRY_CONFIG :=
  ⟨fun _ _ => ⟨rfl, rfl, rfl⟩, rfl⟩

/-!
## Key generator

`_generateRequestKey` (src/index.ts lines 168 to 197).  The caller's
`config.params` object lives on a heap of objects so that the
clone-then-delete step (`const params = \x7b ...config.params \x7d` followed
by `delete params._t`) and its non-mutation of the original are faithfully
observable.  A heap reference is an index into `Heap.objs`; `halloc`
appends a fresh object.
-/

/-- A JavaScript object as a field list in insertion order. -/
abbrev JObj := List (String × JValue)

/-- A heap of objects addressed by allocation index. -/
structure Heap where
  objs : List JObj

/-- Read the object behind a reference (a dangling read yields the empty
object; theorems that care pass valid references). -/
def hread (h : Heap) (r : Nat) : JObj := (h.objs[r]?).getD []

/-- Allocate a fresh object (the spread clone), returning its reference. -/
def halloc (h : Heap) (o : JObj) : Heap × Nat := (⟨h.objs ++ [o]⟩, h.objs.length)

/-- Overwrite the object behind a reference. -/
def hwrite (h : Heap) (r : Nat) (o : JObj) : Heap := ⟨h.objs.set r o⟩

/-- Property read returning `undefined` (`none`) for a missing key. -/
def objGet (o : JObj) (k : String) : Option JValue :=
  match o with
  | [] => none
  | (k', v) :: rest => if k' = k then some v else objGet rest k

/-- `delete obj[k]`. -/
def objDelete (o : JObj) (k : String) : JObj := o.filter (fun p => p.1 != k)

/-- `method.toUpperCase()` (ASCII case mapping; HTTP method names are
ASCII). -/
def jsToUpper (s : String) : String := ⟨s.data.map Char.toUpper⟩

/-- `config.method || "GET"` and `config.url || ""`: JavaScript or-default
over truthiness of strings. -/
def jsOrString (s : Option String) (dflt : String) : String :=
  match s with
  | some v => if v = "" then dflt else v
  | none => dflt

/-- The body serialization (src/index.ts lines 191 to 194): only for the
four body-carrying methods and only when `config.data` is truthy; a string
body passes through raw, anything else goes through the stable serializer. -/
def dataString (method : String) (d : Option JValue) : String :=
  if (method = "POST" || method = "PUT" || method = "PATCH" || method = "DELETE") &&
      jsTruthyOpt d then
    match d with
    | some (.jstr s) => s
    | some v => stableStringify v
    | none => ""
  else ""

/-- The request-shape inputs of `_generateRequestKey`: method, url, a heap
reference to the params object (absent when `config.params` is nullish),
and the body value. -/
structure GenConfig where
  method : Option String
  url : Option String
  params : Option Nat
  data : Option JValue

/-- Lines 173 to 178 of src/index.ts: clone the params object by spread,
then `delete params._t` on the clone when `params?._t` is truthy.  Returns
the post-step heap and the reference to the clone. -/
def cloneAndStrip (h : Heap) (r : Nat) : Heap × Nat :=
  let alloc := halloc h (hread h r)
  let h1 := alloc.1
  let r1 := alloc.2
  if jsTruthyOpt (objGet (hread h1 r1) "_t") then
    (hwrite h1 r1 (objDelete (hread h1 r1) "_t"), r1)
  else (h1, r1)

/-- `_generateRequestKey` (src/index.ts lines 168 to 197): normalize the
method, clone the params object, delete `_t` from the clone when truthy,
serialize params with the per-call serializer, else the instance
serializer, else `_stableStringify`, serialize the body for body-carrying
methods, and join with `|`.  Returns the key and the post-call heap. -/
def generateRequestKey (instSer : Option (JObj → String)) (cfg : GenConfig)
    (cfgSer : Option (JObj → String)) (h : Heap) : String × Heap :=
  let method := jsToUpper (jsOrString cfg.method "GET")
  let url := jsOrString cfg.url ""
  let dataStr := dataString method cfg.data
  match cfg.params with
  | none => (method ++ "|" ++ url ++ "|" ++ "" ++ "|" ++ dataStr, h)
  | some r =>
      let cs := cloneAndStrip h r
      let p := hread cs.1 cs.2
      let paramsStr :=
        match cfgSer with
        | some f => f p
        | none =>
            match instSer with
            | some g => g p
            | none => stableStringify (.jobj p)
      (method ++ "|" ++ url ++ "|" ++ paramsStr ++ "|" ++ dataStr, cs.1)

/-- The `_t` entry of a params object is absent or truthy (so the clone
really is stripped of it). -/
def cacheBusterOk (o : JObj) : Bool :=
  match objGet o "_t" with
  | none => true
  | some v => jsTruthy v

theorem objGet_none_filter {o : JObj} (h : objGet o "_t" = none) :
    o.filter (fun p => p.1 != "_t") = o := by
  induction o with
  | nil => rfl
  | cons p rest ih =>
      obtain ⟨k, v⟩ := p
      by_cases hk : k = "_t"
      · rw [objGet, if_pos hk] at h
        cases h
      · rw [objGet, if_neg hk] at h
        simp only [List.filter_cons]
        rw [if_pos (by simpa using hk)]
        rw [ih h]

theorem halloc_read (h : Heap) (o : JObj) :
    hread (halloc h o).1 (halloc h o).2 = o := by
  simp [halloc, hread, List.getElem?_concat_length]

theorem cloneAndStrip_read (h : Heap) (r : Nat)
    (hok : cacheBusterOk (hread h r) = true) :
    hread (cloneAndStrip h r).1 (cloneAndStrip h r).2 =
      (hread h r).filter (fun p => p.1 != "_t") := by
  simp only [cloneAndStrip]
  rw [halloc_read h (hread h r)]
  revert hok
  generalize hread h r = o
  intro hok
  by_cases ht : jsTruthyOpt (objGet o "_t") = true
  · rw [if_pos ht]
    show hread (hwrite (halloc h o).1 (halloc h o).2 (objDelete o "_t"))
        (halloc h o).2 = List.filter (fun p => p.1 != "_t") o
    simp only [halloc, hwrite, hread]
    rw [List.getElem?_set_self (by simp)]
    simp [objDelete]
  · rw [if_neg ht]
    show hread (halloc h o).1 (halloc h o).2 = List.filter (fun p => p.1 != "_t") o
    rw [halloc_read h o]
    unfold cacheBusterOk at hok
    cases hg : objGet o "_t" with
    | none => exact (objGet_none_filter hg).symm
    | some v =>
        rw [hg] at hok
        simp only [jsTruthyOpt, hg] at ht
        simp at hok
        exact absurd hok ht

theorem cloneAndStrip_no_mutation (h : Heap) (r r' : Nat)
    (hr' : r' < h.objs.length) :
    hread (cloneAndStrip h r).1 r' = hread h r' := by
  simp only [cloneAndStrip]
  rw [halloc_read h (hread h r)]
  have hro : hread h r' = (h.objs[r']?).getD [] := rfl
  rw [hro]
  generalize hread h r = o
  by_cases ht : jsTruthyOpt (objGet o "_t") = true
  · rw [if_pos ht]
    show hread (hwrite (halloc h o).1 (halloc h o).2 (objDelete o "_t")) r' = _
    simp only [halloc, hwrite, hread]
    rw [List.getElem?_set_ne (by omega)]
    rw [List.getElem?_append_left hr']
  · rw [if_neg ht]
    show hread (halloc h o).1 r' = _
    simp only [halloc, hread]
    rw [List.getElem?_append_left hr']

/-- The heap of the C4 counterexample: object 0 is `\x7b a: 1, _t: 0 \x7d`
and object 1 is `\x7b a: 1 \x7d` — identical except for the presence of the
cache-busting parameter `_t`, whose value `0` is falsy. -/
def heapC4 : Heap := ⟨[[("a", .jnum 1), ("_t", .jnum 0)], [("a", .jnum 1)]]⟩

/-- C4 counterexample: two descriptors identical except for the presence of
`_t` produce different keys, because `_t: 0` is falsy and the truthiness
guard `if (params?._t)` skips the delete, letting `_t` reach the
serializer. -/
theorem claim_C4_counterexample :
    (generateRequestKey none ⟨some "GET", some "/u", some 0, none⟩ none heapC4).1 ≠
      (generateRequestKey none ⟨some "GET", some "/u", some 1, none⟩ none heapC4).1 ∧
    (generateRequestKey none ⟨some "GET", some "/u", some 0, none⟩ none heapC4).1 =
      "GET|/u|\x7b\"_t\":0,\"a\":1\x7d|" ∧
    (generateRequestKey none ⟨some "GET", some "/u", some 1, none⟩ none heapC4).1 =
      "GET|/u|\x7b\"a\":1\x7d|" := by
  refine ⟨by decide, by decide, by decide⟩

/-- Amended C4: whenever the `_t` entry of each descriptor is absent or
truthy (in particular for real timestamp cache busters, which are nonzero
numbers), descriptors identical except for `_t` produce identical keys;
and independently of truthiness, the key generator never mutates any
caller-visible object — it strips `_t` on a spread clone. -/
theorem claim_C4_amended :
    (∀ (instSer cfgSer : Option (JObj → String)) (m u : Option String)
        (d : Option JValue) (h : Heap) (r1 r2 : Nat),
      cacheBusterOk (hread h r1) = true →
      cacheBusterOk (hread h r2) = true →
      (hread h r1).filter (fun p => p.1 != "_t") =
        (hread h r2).filter (fun p => p.1 != "_t") →
      (generateRequestKey instSer ⟨m, u, some r1, d⟩ cfgSer h).1 =
        (generateRequestKey instSer ⟨m, u, some r2, d⟩ cfgSer h).1) ∧
    (∀ (instSer cfgSer : Option (JObj → String)) (cfg : GenConfig) (h : Heap)
        (r' : Nat), r' < h.objs.length →
      hread (generateRequestKey instSer cfg cfgSer h).2 r' = hread h r') := by
  constructor
  · intro instSer cfgSer m u d h r1 r2 hok1 hok2 hfil
    have hp1 := cloneAndStrip_read h r1 hok1
    have hp2 := cloneAndStrip_read h r2 hok2
    simp only [generateRequestKey, hp1, hp2, hfil]
  · intro instSer cfgSer cfg h r' hr'
    match hc : cfg.params with
    | none => simp [generateRequestKey, hc]
    | some r =>
        simp only [generateRequestKey, hc]
        exact cloneAndStrip_no_mutation h r r' hr'

/-- Witness for the amended C4: descriptors with truthy `_t: 7` present in
one and absent in the other, plus a valid reference for the non-mutation
part. -/
theorem claim_C4_witness :
    (generateRequestKey none ⟨some "GET", some "/u", some 0, none⟩ none
        (⟨[[("a", .jnum 1), ("_t", .jnum 7)], [("a", .jnum 1)]]⟩ : Heap)).1 =
      (generateRequestKey none ⟨some "GET", some "/u", some 1, none⟩ none
        (⟨[[("a", .jnum 1), ("_t", .jnum 7)], [("a", .jnum 1)]]⟩ : Heap)).1 ∧
    hread (generateRequestKey none ⟨some "GET", some "/u", some 0, none⟩ none
        (⟨[[("a", .jnum 1), ("_t", .jnum 7)], [("a", .jnum 1)]]⟩ : Heap)).2 0 =
      hread (⟨[[("a", .jnum 1), ("_t", .jnum 7)], [("a", .jnum 1)]]⟩ : Heap) 0 :=
  ⟨claim_C4_amended.1 none none (some "GET") (some "/u") none
      ⟨[[("a", .jnum 1), ("_t", .jnum 7)], [("a", .jnum 1)]]⟩ 0 1
      (by decide) (by decide) rfl,
    claim_C4_amended.2 none none ⟨some "GET", some "/u", some 0, none⟩
      ⟨[[("a", .jnum 1), ("_t", .jnum 7)], [("a", .jnum 1)]]⟩ 0 (by decide)⟩

/-!
## Stable serializer claims

"Structurally equal up to key insertion order" is the relation `JEquiv`:
scalars must agree, array elements correspond in order, and object field
lists correspond pointwise after a permutation.  `JWF` is deep key
uniqueness (real JavaScript objects cannot carry duplicate keys).
-/

theorem charListLe_total : ∀ (as bs : List Char),
    charListLe as bs = true ∨ charListLe bs as = true := by
  intro as
  induction as with
  | nil => intro bs; left; rfl
  | cons a as ih =>
      intro bs
      cases bs with
      | nil => right; rfl
      | cons b bs =>
          by_cases hab : a = b
          · subst hab
            simp only [charListLe, if_pos rfl]
            exact ih bs
          · simp only [charListLe, if_neg hab, if_neg (Ne.symm hab)]
            rcases lt_or_gt_of_ne hab with h | h
            · left; exact decide_eq_true h
            · right; exact decide_eq_true h

theorem charListLe_trans : ∀ (as bs cs : List Char),
    charListLe as bs = true → charListLe bs cs = true → charListLe as cs = true := by
  intro as
  induction as with
  | nil => intro bs cs _ _; rfl
  | cons a as ih =>
      intro bs cs h1 h2
      cases bs with
      | nil => simp [charListLe] at h1
      | cons b bs =>
          cases cs with
          | nil => simp [charListLe] at h2
          | cons c cs =>
              by_cases hab : a = b <;> by_cases hbc : b = c
              · subst hab; subst hbc
                simp only [charListLe, if_pos rfl] at h1 h2 ⊢
                exact ih _ _ h1 h2
              · subst hab
                simp only [charListLe, if_pos rfl, if_neg hbc] at h1 h2
                simp only [charListLe, if_neg hbc]
                exact h2
              · subst hbc
                simp only [charListLe, if_neg hab, if_pos rfl] at h1
                simp only [charListLe, if_neg hab]
                exact h1
              · simp only [charListLe, if_neg hab, if_neg hbc] at h1 h2
                have hac : a < c := lt_trans (of_decide_eq_true h1) (of_decide_eq_true h2)
                have hne : a ≠ c := ne_of_lt hac
                simp only [charListLe, if_neg hne]
                exact decide_eq_true hac

theorem charListLe_antisymm : ∀ (as bs : List Char),
    charListLe as bs = true → charListLe bs as = true → as = bs := by
  intro as
  induction as with
  | nil =>
      intro bs _ h2
      cases bs with
      | nil => rfl
      | cons b bs => simp [charListLe] at h2
  | cons a as ih =>
      intro bs h1 h2
      cases bs with
      | nil => simp [charListLe] at h1
      | cons b bs =>
          by_cases hab : a = b
          · subst hab
            simp only [charListLe, if_pos rfl] at h1 h2
            rw [ih _ h1 h2]
          · simp only [charListLe, if_neg hab, if_neg (Ne.symm hab)] at h1 h2
            have := of_decide_eq_true h1
            have := of_decide_eq_true h2
            exact absurd (lt_trans (of_decide_eq_true h1) (of_decide_eq_true h2))
              (lt_irrefl a)

instance : IsTotal String keyLe :=
  ⟨fun a b => charListLe_total a.data b.data⟩

instance : IsTrans String keyLe :=
  ⟨fun a b c => charListLe_trans a.data b.data c.data⟩

instance : IsAntisymm String keyLe :=
  ⟨fun a b h1 h2 => by
    cases a
    cases b
    exact congrArg String.mk (charListLe_antisymm _ _ h1 h2)⟩

/-- Sorting is canonical: permuted key lists sort identically. -/
theorem sortKeys_perm_eq {l1 l2 : List String} (h : l1.Perm l2) :
    sortKeys l1 = sortKeys l2 :=
  List.eq_of_perm_of_sorted
    ((List.perm_insertionSort keyLe l1).trans
      (h.trans (List.perm_insertionSort keyLe l2).symm))
    (List.sorted_insertionSort keyLe l1)
    (List.sorted_insertionSort keyLe l2)

mutual
/-- Structural equality up to object key insertion order, recursively. -/
inductive JEquiv : JValue → JValue → Prop where
  | jnull : JEquiv .jnull .jnull
  | jbool (b : Bool) : JEquiv (.jbool b) (.jbool b)
  | jnum (n : Int) : JEquiv (.jnum n) (.jnum n)
  | jstr (s : String) : JEquiv (.jstr s) (.jstr s)
  | jarr {xs ys : List JValue} : JEquivList xs ys → JEquiv (.jarr xs) (.jarr ys)
  | jobj {fs gs2 gs : List (String × JValue)} :
      JEquivFields fs gs2 → gs2.Perm gs → JEquiv (.jobj fs) (.jobj gs)

inductive JEquivList : List JValue → List JValue → Prop where
  | nil : JEquivList [] []
  | cons {x y : JValue} {xs ys : List JValue} :
      JEquiv x y → JEquivList xs ys → JEquivList (x :: xs) (y :: ys)

inductive JEquivFields :
    List (String × JValue) → List (String × JValue) → Prop where
  | nil : JEquivFields [] []
  | cons (k : String) {v w : JValue} {fs gs : List (String × JValue)} :
      JEquiv v w → JEquivFields fs gs → JEquivFields ((k, v) :: fs) ((k, w) :: gs)
end

mutual
/-- Deep key uniqueness: every object in the value has distinct keys. -/
inductive JWF : JValue → Prop where
  | jnull : JWF .jnull
  | jbool (b : Bool) : JWF (.jbool b)
  | jnum (n : Int) : JWF (.jnum n)
  | jstr (s : String) : JWF (.jstr s)
  | jarr {xs : List JValue} : JWFList xs → JWF (.jarr xs)
  | jobj {fs : List (String × JValue)} :
      (fs.map Prod.fst).Nodup → JWFFields fs → JWF (.jobj fs)

inductive JWFList : List JValue → Prop where
  | nil : JWFList []
  | cons {x : JValue} {xs : List JValue} : JWF x → JWFList xs → JWFList (x :: xs)

inductive JWFFields : List (String × JValue) → Prop where
  | nil : JWFFields []
  | cons (k : String) {v : JValue} {fs : List (String × JValue)} :
      JWF v → JWFFields fs → JWFFields ((k, v) :: fs)
end

theorem jequivFields_keys :
    ∀ {fs gs : List (String × JValue)}, JEquivFields fs gs →
      fs.map Prod.fst = gs.map Prod.fst := by
  intro fs
  induction fs with
  | nil =>
      intro gs h
      cases h
      rfl
  | cons p fs ih =>
      intro gs h
      cases h with
      | cons k hv hrest => simp [ih hrest]

theorem jequivFields_lookup :
    ∀ {fs gs : List (String × JValue)}, JEquivFields fs gs → ∀ (k : String),
      JEquiv (jlookup k fs) (jlookup k gs) := by
  intro fs
  induction fs with
  | nil =>
      intro gs h k
      cases h
      exact JEquiv.jnull
  | cons p fs ih =>
      intro gs h k
      cases h with
      | cons k' hv hrest =>
          simp only [jlookup]
          by_cases hk : k' = k
          · rw [if_pos hk, if_pos hk]
            assumption
          · rw [if_neg hk, if_neg hk]
            exact ih hrest k

theorem jwfFields_lookup :
    ∀ {fs : List (String × JValue)}, JWFFields fs → ∀ (k : String),
      JWF (jlookup k fs) := by
  intro fs
  induction fs with
  | nil =>
      intro h k
      exact JWF.jnull
  | cons p fs ih =>
      intro h k
      cases h with
      | cons k' hv hrest =>
          simp only [jlookup]
          by_cases hk : k' = k
          · rw [if_pos hk]
            assumption
          · rw [if_neg hk]
            exact ih hrest k

theorem jlookup_perm {fs gs : List (String × JValue)} (h : fs.Perm gs) :
    (fs.map Prod.fst).Nodup → ∀ k, jlookup k fs = jlookup k gs := by
  induction h with
  | nil => intro _ k; rfl
  | cons x h ih =>
      intro hnd k
      obtain ⟨kx, vx⟩ := x
      simp only [List.map_cons, List.nodup_cons] at hnd
      simp only [jlookup]
      by_cases hk : kx = k
      · rw [if_pos hk, if_pos hk]
      · rw [if_neg hk, if_neg hk]
        exact ih hnd.2 k
  | swap x y l =>
      intro hnd k
      obtain ⟨kx, vx⟩ := x
      obtain ⟨ky, vy⟩ := y
      simp only [List.map_cons, List.nodup_cons, List.mem_cons] at hnd
      have hxy : ky ≠ kx := fun he => hnd.1 (Or.inl he)
      simp only [jlookup]
      by_cases h1 : ky = k
      · rw [if_pos h1, if_neg (h1 ▸ Ne.symm hxy), if_pos h1]
      · by_cases h2 : kx = k
        · rw [if_neg h1, if_pos h2, if_pos h2]
        · rw [if_neg h1, if_neg h2, if_neg h2, if_neg h1]
  | trans h1 h2 ih1 ih2 =>
      intro hnd k
      rw [ih1 hnd k]
      have hnd2 := (h1.map Prod.fst).nodup hnd
      rw [ih2 hnd2 k]

theorem sstr_equiv_bound :
    ∀ (bound : Nat) (a b : JValue), jsize a ≤ bound → JWF a → JEquiv a b →
      stableStringify a = stableStringify b := by
  intro bound
  induction bound with
  | zero =>
      intro a b hsz _ _
      have := one_le_jsize a
      omega
  | succ N ih =>
      intro a b hsz hwf heq
      cases heq with
      | jnull => rfl
      | jbool b => rfl
      | jnum n => rfl
      | jstr s => rfl
      | jarr hl =>
          rename_i xs ys
          rw [stableStringify_jarr, stableStringify_jarr]
          have hszl : jsizeList xs ≤ N := by
            simp only [jsize] at hsz
            omega
          have hwfl : JWFList xs := by
            cases hwf with
            | jarr h => exact h
          have hmap : ∀ (us : List JValue), jsizeList us ≤ N → JWFList us →
              ∀ (vs : List JValue), JEquivList us vs →
              us.map stableStringify = vs.map stableStringify := by
            intro us
            induction us with
            | nil =>
                intro _ _ vs hl2
                cases hl2
                rfl
            | cons x xs ihl =>
                intro hsz2 hwf2 vs hl2
                cases hl2 with
                | cons hxy hrest =>
                    cases hwf2 with
                    | cons hwx hwxs =>
                        simp only [List.map_cons]
                        rw [ih _ _ (by simp only [jsizeList] at hsz2; omega) hwx hxy]
                        rw [ihl (by simp only [jsizeList] at hsz2; omega) hwxs _ hrest]
          rw [hmap xs hszl hwfl ys hl]
      | jobj hfields hperm =>
          rename_i fs gs2 gs
          rw [stableStringify_jobj, stableStringify_jobj]
          rcases hwf with _ | _ | _ | _ | _ | ⟨hnd, hwff⟩
          have hkeys : fs.map Prod.fst = gs2.map Prod.fst := jequivFields_keys hfields
          have hknd2 : (gs2.map Prod.fst).Nodup := hkeys ▸ hnd
          have hkperm : (fs.map Prod.fst).Perm (gs.map Prod.fst) := by
            rw [hkeys]
            exact hperm.map Prod.fst
          rw [← sortKeys_perm_eq hkperm]
          have hpt : ∀ k ∈ sortKeys (fs.map Prod.fst),
              (fun k => "\"" ++ k ++ "\":" ++ stableStringify (jlookup k fs)) k =
              (fun k => "\"" ++ k ++ "\":" ++ stableStringify (jlookup k gs)) k := by
            intro k _
            have h1 : jlookup k gs2 = jlookup k gs := jlookup_perm hperm hknd2 k
            have h2 : JEquiv (jlookup k fs) (jlookup k gs2) :=
              jequivFields_lookup hfields k
            have h3 : JWF (jlookup k fs) := jwfFields_lookup hwff k
            have h4 : jsize (jlookup k fs) ≤ N := by
              have := jlookup_jsize_lt k fs
              simp only [jsize] at hsz
              omega
            simp only
            rw [← h1, ih _ _ h4 h3 h2]
          rw [List.map_congr_left hpt]

/-- Amended C6: objects that are structurally equal up to key insertion
order (with duplicate-free keys) serialize identically; array element order
is significant — reordering can change the output, as `[1,2]` against
`[2,1]` shows — and null and undefined serialize to the empty string.  (The
universal form of the array clause fails: see the counterexample, where two
arrays differing only in element order collide because `[null]` and `[]`
both serialize to `[]`.) -/
theorem claim_C6_amended :
    (∀ (a b : JValue), JWF a → JEquiv a b →
      stableStringify a = stableStringify b) ∧
    stableStringify (.jarr [.jnum 1, .jnum 2]) ≠
      stableStringify (.jarr [.jnum 2, .jnum 1]) ∧
    stableStringify .jnull = "" := by
  refine ⟨?_, by decide, rfl⟩
  intro a b hwf heq
  exact sstr_equiv_bound (jsize a) a b le_rfl hwf heq

/-- Witness for the amended C6: the two-field object with keys inserted in
the two possible orders serializes identically. -/
theorem claim_C6_amended_witness :
    stableStringify (.jobj [("b", .jnum 2), ("a", .jnum 1)]) =
      stableStringify (.jobj [("a", .jnum 1), ("b", .jnum 2)]) :=
  claim_C6_amended.1 (.jobj [("b", .jnum 2), ("a", .jnum 1)])
    (.jobj [("a", .jnum 1), ("b", .jnum 2)])
    (JWF.jobj (by decide)
      (JWFFields.cons "b" (JWF.jnum 2) (JWFFields.cons "a" (JWF.jnum 1) JWFFields.nil)))
    (JEquiv.jobj
      (JEquivFields.cons "b" (JEquiv.jnum 2)
        (JEquivFields.cons "a" (JEquiv.jnum 1) JEquivFields.nil))
      (List.Perm.swap ("a", JValue.jnum 1) ("b", JValue.jnum 2) []))

/-- C6 counterexample: the arrays `[[null], []]` and `[[], [null]]` differ
only in element order, yet serialize to the same string `[[],[]]`, because
null serializes to the empty string and so `[null]` and `[]` both render as
`[]`.  This refutes the claim that changing array element order always
produces different output. -/
theorem claim_C6_counterexample :
    stableStringify (.jarr [.jarr [.jnull], .jarr []]) =
      stableStringify (.jarr [.jarr [], .jarr [.jnull]]) ∧
    stableStringify (.jarr [.jarr [.jnull], .jarr []]) = "[[],[]]" ∧
    JValue.jarr [.jarr [.jnull], .jarr []] ≠ JValue.jarr [.jarr [], .jarr [.jnull]] ∧
    List.Perm [JValue.jarr [.jnull], JValue.jarr []]
      [JValue.jarr [], JValue.jarr [.jnull]] := by
  refine ⟨by decide, by decide, ?_, List.Perm.swap _ _ _⟩
  intro h
  injection h with h1
  injection h1 with h2 h3
  injection h2 with h4
  cases h4
